import Mathlib

/-!
Verification development for the obsidian-full-calendar event core.

Shallow embedding of the event data model and the conversion / calendar
operations referenced by the specification:

* `src/interop.ts` (here `part_001`): `toEventInput`, `fromEventApi`,
  `getCustomProperties`, `hashStringToColor`, the weekday code table `DAYS`,
  time parsing and the rrule exdate construction.
* `src/calendars/ShelveCalendar.ts` (here `part_003`): `containsPath`,
  `getEventsInFile`, `getEvents`, `createEvent`, `move`.
* `src/ui/components/EditEvent.tsx`: initial task state and `handleSubmit`.
* `src/ui/linear/LinearView.tsx` / `LinearMonth.tsx`: the duplicated color
  hash and the lane-assignment loop of the linear month renderer.

Modelling conventions: calendar dates are integer day numbers; times of day
are minutes since midnight.  A time *string* is modelled by its luxon parse
result (`TimeStr.parsed = none` when the string fails all three accepted
formats), because string-level parsing is done by the external luxon library.
Machine integers are `Int` with explicit 32-bit wrapping where JavaScript
bitwise operators are involved.
-/

/-- A time of day, in minutes since midnight. -/
abbrev TimeOfDay := Nat

/-- A time-of-day string, modelled by its parse result: `parsed = none` iff
luxon rejects the string in all three formats tried by `parseTime`. -/
structure TimeStr where
  parsed : Option TimeOfDay
deriving DecidableEq, Repr

/-- A local date-time: integer day number plus time of day. -/
structure DateTimeM where
  day : Int
  time : TimeOfDay
deriving DecidableEq, Repr

/-- The `completed` field of a single event: `undefined` (absent), `null`,
`false` (open task) or an ISO timestamp string (completed task). -/
inductive Completed where
  | absent
  | cnull
  | notDone
  | doneAt (t : String)
deriving DecidableEq, Repr

/-- Variant-specific data of an `OFCEvent` (the `type` tag of the wire
schema). Dates are integer day numbers. -/
inductive EventData where
  | single (date : Int) (endDate : Option Int) (completed : Completed)
  | recurring (daysOfWeek : List Char) (startRecur : Option Int)
      (endRecur : Option Int)
  | rrule (rule : String) (startDate : Int) (skipDates : List Int)
deriving DecidableEq, Repr

/-- An event in the plugin's own schema (`OFCEvent` in `src/types.ts`):
shared fields, the tagged variant data, and the open bag of custom
string-valued properties. -/
structure OFCEvent where
  title : String
  allDay : Bool
  startTime : Option TimeStr
  endTime : Option TimeStr
  data : EventData
  customProps : List (String × String)
deriving DecidableEq, Repr

/-- `parseTime` applied to an optional field: `undefined`, `null` and the
empty string all fail to parse, otherwise the string's own parse result. -/
def parseTimeField : Option TimeStr → Option TimeOfDay
  | none => none
  | some t => t.parsed

/-- `combineDateTimeStrings`: parse the date (always a valid date in this
model) and the time, and combine them; `null` when the time fails to parse. -/
def combineDateTimeStrings (date : Int) (time : Option TimeStr) :
    Option DateTimeM :=
  (parseTimeField time).map (fun t => ⟨date, t⟩)

/-- The weekday code alphabet `DAYS = "UMTWRFS"` of `interop.ts`. -/
def DAYS : List Char := ['U', 'M', 'T', 'W', 'R', 'F', 'S']

/-- `DAYS.indexOf(c)`: index of a weekday code, `-1` when absent
(JavaScript `String.prototype.indexOf`). -/
def encodeDay (c : Char) : Int :=
  match DAYS.findIdx? (fun d => d = c) with
  | some i => (i : Int)
  | none => -1

/-- `DAYS[i]`: weekday code at a numeric index, as used by `fromEventApi`. -/
def decodeDay (i : Int) : Char := DAYS.getD i.toNat ' '

/-- The standard `OFCEvent` field names excluded by `getCustomProperties`. -/
def standardFields : List String :=
  ["title", "id", "type", "date", "endDate", "allDay", "startTime",
   "endTime", "daysOfWeek", "startRecur", "endRecur", "completed",
   "startDate", "rrule", "skipDates"]

/-- `getCustomProperties`: every non-standard key whose value is not
`undefined`, `null` or the empty string. -/
def getCustomProperties (fm : OFCEvent) : List (String × String) :=
  fm.customProps.filter
    (fun kv => ¬ standardFields.contains kv.1 ∧ kv.2 ≠ "")

/-- The `extendedProps` bag attached by `toEventInput` for single and
recurring events: the task flags plus the custom properties.
`taskCompleted` is `.absent` when the key is not present (recurring). -/
structure ExtendedProps where
  isTask : Bool
  taskCompleted : Completed
  custom : List (String × String)
deriving DecidableEq, Repr

/-- The rendering-model event (`EventInput` of the FullCalendar API) as far
as the core populates it.  Presentation-only color fields produced by
`getEventColor` are not represented.  `rruleOut` carries the rrule string
together with the computed `dtstart` anchor; `exdate` is the exclusion
list handed to the recurrence expander. -/
structure EventInput where
  id : String
  title : String
  allDay : Bool
  daysOfWeek : Option (List Int) := none
  startRecur : Option Int := none
  endRecur : Option Int := none
  startTimeN : Option (Option TimeOfDay) := none
  endTimeN : Option (Option TimeOfDay) := none
  rruleOut : Option (String × DateTimeM) := none
  exdate : List DateTimeM := []
  duration : Option Int := none
  start : Option DateTimeM := none
  endI : Option DateTimeM := none
  extendedProps : Option ExtendedProps := none
deriving DecidableEq, Repr

/-- The `dtstart` computation of the rrule branch of `toEventInput`: the
bare start date when all-day, otherwise the start date combined with the
(parsed) start time; `null` when the time fails to parse. -/
def rruleDtstart (fm : OFCEvent) (startDate : Int) : Option DateTimeM :=
  if fm.allDay then some ⟨startDate, 0⟩
  else combineDateTimeStrings startDate fm.startTime

/-- Modelled luxon `Duration.toISOTime`: an ISO time string exists only
for durations from zero up to (excluding) 24 hours; `null` otherwise (in
particular for a negative difference). -/
def durationToISOTime (d : Int) : Option Int :=
  if 0 ≤ d ∧ d < 1440 then some d else none

/-- The `duration` computation of the rrule branch of `toEventInput`:
when the event is timed, the start time parses and the end time is
present and parses, the difference end minus start is computed once at the
definition level and serialized with `toISOTime`; the serialization yields
`null` (no duration attached) when the difference is not a valid
time-of-day duration. -/
def rruleDuration (fm : OFCEvent) : Option Int :=
  if fm.allDay then none
  else
    match parseTimeField fm.startTime, fm.endTime with
    | some st, some ets =>
        match ets.parsed with
        | some et => durationToISOTime ((et : Int) - (st : Int))
        | none => none
    | _, _ => none

/-- The `isTask` computation of `toEventInput`'s single branch:
`completed !== undefined && completed !== null`. -/
def toEventInputIsTask (c : Completed) : Bool :=
  ¬ c = .absent ∧ ¬ c = .cnull

/-- `toEventInput` from `interop.ts`: convert an `OFCEvent` to the
FullCalendar rendering model; `null` when a required time string fails to
parse. -/
def toEventInput (id : String) (fm : OFCEvent) : Option EventInput :=
  match fm.data with
  | .recurring daysOfWeek startRecur endRecur =>
      some { id := id, title := fm.title, allDay := fm.allDay,
             daysOfWeek := some (daysOfWeek.map encodeDay),
             startRecur := startRecur, endRecur := endRecur,
             startTimeN :=
               if fm.allDay then none else some (parseTimeField fm.startTime),
             endTimeN :=
               if fm.allDay then none
               else match fm.endTime with
                 | some et => some et.parsed
                 | none => none,
             extendedProps :=
               some ⟨false, .absent, getCustomProperties fm⟩ }
  | .rrule rule startDate skipDates =>
      match rruleDtstart fm startDate with
      | none => none
      | some dtstart =>
          -- NOTE (from the source): exdates pair each skip date with the
          -- start time of the event; this does not support events which
          -- recur more than once per day.
          some { id := id, title := fm.title, allDay := fm.allDay,
                 rruleOut := some (rule, dtstart),
                 exdate :=
                   skipDates.map (fun d => (⟨d, dtstart.time⟩ : DateTimeM)),
                 duration := rruleDuration fm }
  | .single date endDate completed =>
      if fm.allDay then
        some { id := id, title := fm.title, allDay := fm.allDay,
               start := some ⟨date, 0⟩,
               endI := endDate.map (fun d => ⟨d, 0⟩),
               extendedProps :=
                 some ⟨toEventInputIsTask completed,
                       completed, getCustomProperties fm⟩ }
      else
        match combineDateTimeStrings date fm.startTime with
        | none => none
        | some s =>
            match fm.endTime with
            | none =>
                some { id := id, title := fm.title, allDay := fm.allDay,
                       start := some s, endI := none,
                       extendedProps :=
                         some ⟨toEventInputIsTask completed,
                               completed, getCustomProperties fm⟩ }
            | some et =>
                match combineDateTimeStrings (endDate.getD date) (some et) with
                | none => none
                | some e =>
                    some { id := id, title := fm.title, allDay := fm.allDay,
                           start := some s, endI := some e,
                           extendedProps :=
                             some ⟨toEventInputIsTask completed,
                                   completed, getCustomProperties fm⟩ }

/-- An `EventApi` instance handed back by FullCalendar: concrete start and
end instants plus the `extendedProps` it carries (FullCalendar moves
non-standard input keys into `extendedProps`). -/
structure EventApi where
  title : String
  allDay : Bool
  start : DateTimeM
  stop : DateTimeM
  epDaysOfWeek : Option (List Int)
  epStartRecur : Option Int
  epEndRecur : Option Int
  epTaskCompleted : Completed
  epCustom : List (String × String)
deriving DecidableEq, Repr

/-- Modelled external FullCalendar behavior: an `EventInput` with concrete
start and end instants becomes an `EventApi` carrying the same data; the
declared `extendedProps` and the recurring keys are exposed through the
api's `extendedProps`. -/
def eventInputToApi (ei : EventInput) : Option EventApi :=
  match ei.start, ei.endI with
  | some s, some e =>
      some { title := ei.title, allDay := ei.allDay, start := s, stop := e,
             epDaysOfWeek := ei.daysOfWeek,
             epStartRecur := ei.startRecur, epEndRecur := ei.endRecur,
             epTaskCompleted :=
               (ei.extendedProps.map (fun p => p.taskCompleted)).getD .absent,
             epCustom := (ei.extendedProps.map (fun p => p.custom)).getD [] }
  | _, _ => none

/-- `fromEventApi` from `interop.ts`: reconstruct an `OFCEvent` from a
FullCalendar `EventApi`.  The returned object literal contains only the
standard fields; no custom metadata keys are emitted. -/
def fromEventApi (e : EventApi) : OFCEvent :=
  let isRecurring := e.epDaysOfWeek.isSome
  let startDate := e.start.day
  let endDate := e.stop.day
  { title := e.title,
    allDay := e.allDay,
    startTime := if e.allDay then none else some ⟨some e.start.time⟩,
    endTime := if e.allDay then none else some ⟨some e.stop.time⟩,
    data :=
      if isRecurring then
        .recurring ((e.epDaysOfWeek.getD []).map decodeDay)
          e.epStartRecur e.epEndRecur
      else
        .single startDate
          (if startDate ≠ endDate then some endDate else none)
          e.epTaskCompleted,
    customProps := [] }

/-- Modelled external recurrence expander (`@fullcalendar/rrule`): given the
raw occurrences the RRULE produces in the queried range, drop every
occurrence equal to an `exdate` entry, and attach the event-level
`duration` to each remaining occurrence. -/
def expandWithExdates (occs : List DateTimeM) (ei : EventInput) :
    List (DateTimeM × Option Int) :=
  (occs.filter (fun o => ¬ ei.exdate.contains o)).map
    (fun o => (o, ei.duration))

/-! ## ShelveCalendar (`src/calendars/ShelveCalendar.ts`) -/

/-- A markdown file object (`TFile`) together with the metadata the host
app reports for it: `frontmatter` may be absent, and is an open bag of
string-valued properties. -/
structure FileRec where
  basename : String
  extension : String
  frontmatter : Option (List (String × String))
deriving DecidableEq, Repr

/-- A vault as seen through `getFileByPath`: a partial map from path
strings to file objects. -/
structure VaultM where
  files : String → Option FileRec

/-- `metadata?.frontmatter?.shelve`: the value of the `shelve` property of
a file's frontmatter, when present. -/
def shelveProp (f : FileRec) : Option String :=
  f.frontmatter.bind (fun fm => (fm.find? (fun kv => kv.1 = "shelve")).map
    (fun kv => kv.2))

/-- `ShelveCalendar.containsPath`: resolve the path to a file and compare
the file's current `shelve` frontmatter property with the calendar's
configured value; `false` when the path does not resolve. -/
def shelveContainsPath (v : VaultM) (value : String) (path : String) : Bool :=
  match v.files path with
  | none => false
  | some f => shelveProp f == some value

/-- The vault file tree handed to `getEventsInFolderRecursive`: a `TFile`
leaf or a `TFolder` with children. -/
inductive TAbstractFile where
  | tfile (f : FileRec)
  | tfolder (children : List TAbstractFile)

/-- `ShelveCalendar.getEventsInFile`: empty unless the file's `shelve`
property matches the calendar's value and the frontmatter validates as an
event; a validated event with an empty title gets the file's basename.
`validate` abstracts `validateEvent` from `src/types.ts`. -/
def getEventsInFile (value : String)
    (validate : List (String × String) → Option OFCEvent)
    (f : FileRec) : List (OFCEvent × String) :=
  match f.frontmatter with
  | none => []
  | some fm =>
      if (fm.find? (fun kv => kv.1 = "shelve")).map (fun kv => kv.2)
          ≠ some value then []
      else
        match validate fm with
        | none => []
        | some event =>
            let event' :=
              if event.title = "" then { event with title := f.basename }
              else event
            [(event', f.basename)]

mutual

/-- `ShelveCalendar.getEventsInFolderRecursive`: gather events from every
markdown file in the folder tree.  The source maps the recursion over the
children and flattens; here the map-and-flatten over the child list is the
mutually recursive `getEventsInChildren`. -/
def getEventsInFolderRec (value : String)
    (validate : List (String × String) → Option OFCEvent) :
    TAbstractFile → List (OFCEvent × String)
  | .tfile f =>
      if f.extension = "md" then getEventsInFile value validate f else []
  | .tfolder children => getEventsInChildren value validate children

def getEventsInChildren (value : String)
    (validate : List (String × String) → Option OFCEvent) :
    List TAbstractFile → List (OFCEvent × String)
  | [] => []
  | c :: cs =>
      getEventsInFolderRec value validate c ++
        getEventsInChildren value validate cs

end

/-- `ShelveCalendar.getEvents`: resolve the vault root; throw when it does
not resolve to a folder, otherwise recurse over the whole tree. -/
def shelveGetEvents (root : Option TAbstractFile) (value : String)
    (validate : List (String × String) → Option OFCEvent) :
    Except String (List (OFCEvent × String)) :=
  match root with
  | some (.tfolder children) =>
      .ok (getEventsInFolderRec value validate (.tfolder children))
  | _ => .error "Cannot access vault root"

mutual

/-- All files appearing in a vault tree (and, mutually, in a child list). -/
def treeFiles : TAbstractFile → List FileRec
  | .tfile f => [f]
  | .tfolder children => treeFilesList children

def treeFilesList : List TAbstractFile → List FileRec
  | [] => []
  | c :: cs => treeFiles c ++ treeFilesList cs

end

/-- Abstract state of the backing store, for observing that an operation
performs no write before raising. -/
structure VaultState where
  contents : List (String × String)
deriving DecidableEq, Repr

/-- An `EventPathLocation`: a path and an optional line number. -/
structure EventPathLocation where
  path : String
  lineNumber : Option Nat
deriving DecidableEq, Repr

/-- An `EventLocation`: a file reference and an optional line number. -/
structure EventLocation where
  filePath : String
  lineNumber : Option Nat
deriving DecidableEq, Repr

/-- `ShelveCalendar.createEvent`: unconditionally throws, before touching
any state.  The state is threaded explicitly to make "no mutation before
raising" observable. -/
def shelveCreateEvent (s : VaultState) (_event : OFCEvent) :
    Except String EventLocation × VaultState :=
  (.error ("Shelve calendar does not support creating events directly. " ++
    "Events must be created with the shelve property."), s)

/-- `ShelveCalendar.move`: unconditionally throws, before touching any
state. -/
def shelveMove (s : VaultState) (_fromLocation : EventPathLocation)
    (_toCalendar : String) : Except String Unit × VaultState :=
  (.error "Moving events between shelve calendars is not supported.", s)

/-! ## EditEvent component (`src/ui/components/EditEvent.tsx`) -/

/-- The 12-entry pastel palette of the conversion module. -/
def PROPERTY_COLORS_convert : List String :=
  ["#c5e1a5", "#64b5f6", "#fff59d", "#ffab91", "#ce93d8", "#80deea",
   "#f48fb1", "#a5d6a7", "#90caf9", "#ffcc80", "#b39ddb", "#81c784"]

/-- The 12-entry pastel palette of the linear year view. -/
def PROPERTY_COLORS_linear : List String :=
  ["#c5e1a5", "#64b5f6", "#fff59d", "#ffab91", "#ce93d8", "#80deea",
   "#f48fb1", "#a5d6a7", "#90caf9", "#ffcc80", "#b39ddb", "#81c784"]

/-- ECMAScript `ToInt32`: wrap an exact integer to a signed 32-bit value. -/
def jsToInt32 (x : Int) : Int :=
  let m := x % 4294967296
  if m < 2147483648 then m else m - 4294967296

/-- One step of the hash loop: `hash = charCode + ((hash << 5) - hash)`.
The shift operates on the 32-bit wrap of `hash`; the subtraction and
addition are exact (double-precision, exact for these magnitudes). -/
def hashStep (h : Int) (c : Nat) : Int :=
  (c : Int) + (jsToInt32 (jsToInt32 h * 32) - h)

/-- `hashStringToColor` of the conversion module.  The input string is
modelled by its list of UTF-16 char codes; the empty string is the only
falsy string. -/
def hashStringToColorConvert (codes : List Nat) : String :=
  if codes = [] then "#e0e0e0"
  else
    let hash := codes.foldl hashStep 0
    PROPERTY_COLORS_convert.getD
      (hash.natAbs % PROPERTY_COLORS_convert.length) "#e0e0e0"

/-- `hashStringToColor` of the linear year view (textually duplicated in
the source). -/
def hashStringToColorLinear (codes : List Nat) : String :=
  if codes = [] then "#e0e0e0"
  else
    let hash := codes.foldl hashStep 0
    PROPERTY_COLORS_linear.getD
      (hash.natAbs % PROPERTY_COLORS_linear.length) "#e0e0e0"

/-! ## Lane assignment (`src/ui/linear/LinearMonth.tsx`) -/

/-- An event handed to the linear month renderer, reduced to its
`startOf("day")` start and end instants as integer day numbers. -/
structure LEvent where
  start : Int
  stop : Int
deriving DecidableEq, Repr

/-- A placed event: its clipped cell range and the assigned lane. -/
structure Placed where
  startCell : Int
  endCell : Int
  lane : Nat
deriving DecidableEq, Repr

/-- `lanes.findIndex((lane) => lane.endCell < startCell)`. -/
def findLane (startCell : Int) : List Int → Option Nat
  | [] => none
  | le :: rest =>
      if le < startCell then some 0
      else (findLane startCell rest).map (fun i => i + 1)

/-- The `startCell` computation: clip the event start to the month and
offset by the weekday of the month's first day.  `Math.floor` is the
identity on whole-day differences. -/
def startCellOf (fdow monthStart : Int) (e : LEvent) : Int :=
  fdow + max 0 (max e.start monthStart - monthStart)

/-- The `endCell` computation: start cell plus the clipped span (further
clipped to the remaining columns) minus one.  `Math.round` is the identity
on whole-day differences. -/
def endCellOf (fdow totalCols monthStart monthEndEx : Int) (e : LEvent) :
    Int :=
  let clippedStart := max e.start monthStart
  let clippedEnd := min e.stop monthEndEx
  let startCell := startCellOf fdow monthStart e
  let eventDuration := clippedEnd - clippedStart
  let cellsToSpan := min eventDuration (totalCols - startCell)
  startCell + cellsToSpan - 1

/-- One iteration of the lane-assignment loop: clip the event, compute its
cell range, skip it when it starts past the last column, otherwise assign
the first lane whose `endCell` lies strictly before the event's start cell
(creating a new lane when none qualifies) and update that lane's
`endCell`. -/
def placeOne (fdow totalCols monthStart monthEndEx : Int)
    (lanes : List Int) (e : LEvent) : Option Placed × List Int :=
  if totalCols ≤ startCellOf fdow monthStart e then (none, lanes)
  else
    match findLane (startCellOf fdow monthStart e) lanes with
    | some i =>
        (some ⟨startCellOf fdow monthStart e,
               endCellOf fdow totalCols monthStart monthEndEx e, i⟩,
         lanes.set i (endCellOf fdow totalCols monthStart monthEndEx e))
    | none =>
        (some ⟨startCellOf fdow monthStart e,
               endCellOf fdow totalCols monthStart monthEndEx e,
               lanes.length⟩,
         lanes ++ [endCellOf fdow totalCols monthStart monthEndEx e])

/-- The lane-assignment loop over the (sorted) month events. -/
def assignLanes (fdow totalCols monthStart monthEndEx : Int) :
    List LEvent → List Int → List Placed
  | [], _ => []
  | e :: rest, lanes =>
      match placeOne fdow totalCols monthStart monthEndEx lanes e with
      | (none, lanes') =>
          assignLanes fdow totalCols monthStart monthEndEx rest lanes'
      | (some p, lanes') =>
          p :: assignLanes fdow totalCols monthStart monthEndEx rest lanes'

/-! ## Claims -/

/-- C2: shelve `containsPath(p)` is true iff a file currently exists at `p`
and that file's frontmatter carries the `shelve` property equal to the
calendar's configured value; and the decision depends only on the file the
path resolves to, never on the path string itself. -/
theorem shelve_containsPath_spec (v : VaultM) (value path : String) :
    (shelveContainsPath v value path = true ↔
      ∃ f, v.files path = some f ∧ shelveProp f = some value) ∧
    (∀ q, v.files path = v.files q →
      shelveContainsPath v value path = shelveContainsPath v value q) := by
  constructor
  · unfold shelveContainsPath
    cases h : v.files path with
    | none => simp
    | some f => simp
  · intro q hq
    unfold shelveContainsPath
    rw [hq]

/-- A vault with a single matching file, used to instantiate
`shelve_containsPath_spec`. -/
def c2Vault : VaultM :=
  ⟨fun p => if p = "notes/a.md"
    then some ⟨"a", "md", some [("shelve", "work")]⟩ else none⟩

/-- Witness for C2 at a concrete vault and path. -/
theorem shelve_containsPath_spec_witness :
    shelveContainsPath c2Vault "work" "notes/a.md" = true :=
  (shelve_containsPath_spec c2Vault "work" "notes/a.md").1.mpr
    ⟨⟨"a", "md", some [("shelve", "work")]⟩, by simp [c2Vault], by rfl⟩

/-- C3: `createEvent` and `move` on a shelve calendar always raise an error
(never return successfully, never silently no-op), and the backing state is
returned unchanged. -/
theorem shelve_mutations_always_fail (s : VaultState) (e : OFCEvent)
    (loc : EventPathLocation) (toCal : String) :
    (∃ m, shelveCreateEvent s e = (.error m, s)) ∧
    (∃ m, shelveMove s loc toCal = (.error m, s)) :=
  ⟨⟨_, rfl⟩, ⟨_, rfl⟩⟩

/-- Decoding the encoded index of any code in the alphabet yields the code
again (helper for C7, settled by evaluation over the 7-element list). -/
theorem decode_encode_day : ∀ c ∈ DAYS, decodeDay (encodeDay c) = c := by
  decide

/-- C7: the weekday-code table is a bijection between `U M T W R F S` and
indices 0..6 with `U = 0`; decoding the encoded index of a code yields the
code again, so the `daysOfWeek` conversion of `toEventInput` composed with
the decoding of `fromEventApi` preserves any list of weekday codes. -/
theorem weekday_codes_bijection :
    (encodeDay 'U' = 0) ∧
    (∀ c ∈ DAYS, decodeDay (encodeDay c) = c) ∧
    (∀ c ∈ DAYS, ∀ d ∈ DAYS, encodeDay c = encodeDay d → c = d) ∧
    (∀ ds : List Char, (∀ c ∈ ds, c ∈ DAYS) →
      (ds.map encodeDay).map decodeDay = ds) ∧
    (∀ (id : String) (fm : OFCEvent) (ds : List Char) (sr er : Option Int),
      fm.data = .recurring ds sr er →
      (toEventInput id fm).map (fun ei => ei.daysOfWeek) =
        some (some (ds.map encodeDay))) ∧
    (∀ (api : EventApi) (l : List Int), api.epDaysOfWeek = some l →
      ∃ sr er, (fromEventApi api).data = .recurring (l.map decodeDay) sr er) := by
  refine ⟨by decide, decode_encode_day, by decide, ?_, ?_, ?_⟩
  · intro ds h
    induction ds with
    | nil => simp
    | cons c rest ih =>
        have hc : c ∈ DAYS := h c (by simp)
        have hrest : ∀ x ∈ rest, x ∈ DAYS := fun x hx => h x (by simp [hx])
        simp [decode_encode_day c hc, ih hrest]
  · intro id fm ds sr er hdata
    simp [toEventInput, hdata]
  · intro api l h
    exact ⟨api.epStartRecur, api.epEndRecur, by simp [fromEventApi, h]⟩

/-- Witness for C7 at a concrete code list. -/
theorem weekday_codes_bijection_witness :
    ((['M', 'W'].map encodeDay).map decodeDay) = ['M', 'W'] :=
  weekday_codes_bijection.2.2.2.1 ['M', 'W'] (by decide)

/-- C9: the two copies of `hashStringToColor` agree on every input, every
non-empty string maps into the shared 12-entry pastel palette, and the
empty string maps to the grey default. -/
theorem hash_color_copies_agree :
    (∀ codes : List Nat,
      hashStringToColorConvert codes = hashStringToColorLinear codes) ∧
    (∀ codes : List Nat, codes ≠ [] →
      hashStringToColorConvert codes ∈ PROPERTY_COLORS_convert) ∧
    (hashStringToColorConvert [] = "#e0e0e0") := by
  refine ⟨?_, ?_, rfl⟩
  · intro codes
    have hp : PROPERTY_COLORS_convert = PROPERTY_COLORS_linear := rfl
    unfold hashStringToColorConvert hashStringToColorLinear
    rw [hp]
  · intro codes h
    unfold hashStringToColorConvert
    rw [if_neg h]
    have hlen : PROPERTY_COLORS_convert.length = 12 := rfl
    have hidx : (codes.foldl hashStep 0).natAbs %
        PROPERTY_COLORS_convert.length < PROPERTY_COLORS_convert.length := by
      rw [hlen]; exact Nat.mod_lt _ (by decide)
    rw [List.getD_eq_getElem _ _ hidx]
    exact List.getElem_mem hidx

/-- Witness for C9 at a concrete non-empty char-code list. -/
theorem hash_color_copies_agree_witness :
    hashStringToColorConvert [87, 111, 114, 107] ∈ PROPERTY_COLORS_convert :=
  hash_color_copies_agree.2.1 [87, 111, 114, 107] (by decide)

/-- A concrete all-day single event carrying one custom property, used to
exhibit the failure of the custom-metadata round trip. -/
def c5Event : OFCEvent :=
  { title := "Meeting", allDay := true, startTime := none, endTime := none,
    data := .single 20000 (some 20001) .absent,
    customProps := [("folder", "Work")] }

/-- C5 counterexample: converting a single event with a custom key to the
rendering model and parsing it back with `fromEventApi` does not return
the original event — the custom key is dropped. -/
theorem custom_props_roundtrip_cex :
    ((toEventInput "1" c5Event).bind eventInputToApi).map fromEventApi ≠
      some c5Event := by
  decide

/-- C5 (amended): `toEventInput` carries every custom key (with non-empty
value and non-standard name) verbatim into `extendedProps` for single and
recurring events and attaches no `extendedProps` at all for rrule events,
while `fromEventApi` emits no custom keys whatsoever; the round trip
through the conversion pipeline therefore loses custom metadata. -/
theorem custom_props_preserved_amended :
    (∀ (id : String) (fm : OFCEvent) (ei : EventInput) (ep : ExtendedProps),
      toEventInput id fm = some ei → ei.extendedProps = some ep →
      ep.custom = getCustomProperties fm) ∧
    (∀ fm : OFCEvent,
      (∀ kv ∈ fm.customProps,
        ¬ standardFields.contains kv.1 ∧ kv.2 ≠ "") →
      getCustomProperties fm = fm.customProps) ∧
    (∀ (id : String) (fm : OFCEvent) (ei : EventInput)
        (r : String) (sd : Int) (sk : List Int),
      fm.data = .rrule r sd sk → toEventInput id fm = some ei →
      ei.extendedProps = none) ∧
    (∀ api : EventApi, (fromEventApi api).customProps = []) := by
  refine ⟨?_, ?_, ?_, ?_⟩
  · intro id fm ei ep hok hep
    simp only [toEventInput] at hok
    split at hok
    · cases hok
      cases hep
      rfl
    · split at hok
      · cases hok
      · cases hok
        cases hep
    · split at hok
      · cases hok
        cases hep
        rfl
      · split at hok
        · cases hok
        · split at hok
          · cases hok
            cases hep
            rfl
          · split at hok
            · cases hok
            · cases hok
              cases hep
              rfl
  · intro fm h
    unfold getCustomProperties
    exact List.filter_eq_self.mpr (fun kv hkv => by
      have := h kv hkv
      simpa using this)
  · intro id fm ei r sd sk hdata hok
    simp only [toEventInput, hdata] at hok
    split at hok
    · cases hok
    · cases hok
      rfl
  · intro api
    rfl

/-- Witness for C5's amended theorem at the concrete event `c5Event`. -/
theorem custom_props_preserved_amended_witness :
    getCustomProperties c5Event = c5Event.customProps :=
  custom_props_preserved_amended.2.1 c5Event (by decide)

/-- Membership in the exdate list: a date-time is an exdate entry iff its
date is a skip date and its time-of-day is the paired time. -/
theorem mem_skip_pairs (skips : List Int) (t : TimeOfDay) (o : DateTimeM) :
    (o ∈ skips.map (fun d => (⟨d, t⟩ : DateTimeM))) ↔
      (o.day ∈ skips ∧ o.time = t) := by
  cases o with
  | mk day time =>
      simp only [List.mem_map, DateTimeM.mk.injEq]
      constructor
      · rintro ⟨d, hd, rfl, rfl⟩
        exact ⟨hd, rfl⟩
      · rintro ⟨hd, rfl⟩
        exact ⟨day, hd, rfl, rfl⟩

/-- C1: for an rrule event, the exclusion list handed to the recurrence
expander is exactly one entry per `skipDates` element, each pairing that
skip date with `dtstart`'s time-of-day; hence (whenever the rule fires at
`dtstart`'s time-of-day) expansion removes exactly the occurrences whose
date is a skip date, and an occurrence on a non-matching date is never
removed. -/
theorem rrule_exdates_spec (id : String) (fm : OFCEvent) (rule : String)
    (sd : Int) (skips : List Int) (dt : DateTimeM) (ei : EventInput)
    (hdata : fm.data = .rrule rule sd skips)
    (hdt : rruleDtstart fm sd = some dt)
    (hok : toEventInput id fm = some ei) :
    (ei.exdate = skips.map (fun d => (⟨d, dt.time⟩ : DateTimeM))) ∧
    (ei.exdate.length = skips.length) ∧
    (∀ i, i < skips.length →
      ei.exdate.getD i ⟨0, 0⟩ = ⟨skips.getD i 0, dt.time⟩) ∧
    (∀ occs : List DateTimeM, (∀ o ∈ occs, o.time = dt.time) →
      ∀ o ∈ occs,
        (o ∈ (expandWithExdates occs ei).map Prod.fst ↔ o.day ∉ skips)) ∧
    (∀ (occs : List DateTimeM) (o : DateTimeM), o ∈ occs → o.day ∉ skips →
      o ∈ (expandWithExdates occs ei).map Prod.fst) := by
  simp only [toEventInput, hdata, hdt] at hok
  cases hok
  refine ⟨rfl, by simp, ?_, ?_, ?_⟩
  · intro i hi
    have hi' : i < (skips.map
        (fun d => (⟨d, dt.time⟩ : DateTimeM))).length := by simpa using hi
    rw [List.getD_eq_getElem _ _ hi', List.getElem_map,
        List.getD_eq_getElem _ _ hi]
  · intro occs htime o ho
    simp only [expandWithExdates, List.map_map, Function.comp,
      List.mem_map, List.mem_filter]
    constructor
    · rintro ⟨a, ⟨ha, hfilt⟩, rfl⟩
      intro hday
      have : a ∈ List.map (fun d => (⟨d, dt.time⟩ : DateTimeM)) skips :=
        (mem_skip_pairs skips dt.time a).mpr ⟨hday, htime a ha⟩
      simp [List.elem_iff, this] at hfilt
    · intro hday
      refine ⟨o, ⟨ho, ?_⟩, rfl⟩
      simp only [decide_eq_true_eq, List.elem_iff]
      intro hmem
      exact hday ((mem_skip_pairs skips dt.time o).mp hmem).1
  · intro occs o ho hday
    simp only [expandWithExdates, List.map_map, Function.comp,
      List.mem_map, List.mem_filter]
    refine ⟨o, ⟨ho, ?_⟩, rfl⟩
    simp only [decide_eq_true_eq, List.elem_iff]
    intro hmem
    exact hday ((mem_skip_pairs skips dt.time o).mp hmem).1

/-- A concrete all-day rrule event with one skip date. -/
def c1Event : OFCEvent :=
  { title := "Standup", allDay := true, startTime := none, endTime := none,
    data := .rrule "FREQ=WEEKLY" 100 [107], customProps := [] }

/-- The rendering-model value `toEventInput` produces for `c1Event`. -/
def c1EI : EventInput :=
  { id := "1", title := "Standup", allDay := true,
    rruleOut := some ("FREQ=WEEKLY", ⟨100, 0⟩), exdate := [⟨107, 0⟩] }

/-- Witness for C1: the occurrence on day 100 (not a skip date) survives
expansion of `c1Event`. -/
theorem rrule_exdates_spec_witness :
    (⟨100, 0⟩ : DateTimeM) ∈
      (expandWithExdates [⟨100, 0⟩, ⟨107, 0⟩] c1EI).map Prod.fst :=
  (rrule_exdates_spec "1" c1Event "FREQ=WEEKLY" 100 [107] ⟨100, 0⟩ c1EI
    rfl (by decide) (by decide)).2.2.2.2
    [⟨100, 0⟩, ⟨107, 0⟩] ⟨100, 0⟩ (by decide) (by decide)

/-- C6 (amended): for a timed rrule event whose start and end times are
present and parse, whenever end minus start is a valid time-of-day
duration (at least zero, under 24 hours) the duration attached at the
definition level is end minus start, and every generated occurrence
carries that same definition-level value; for a negative difference the
`toISOTime` serialization yields `null` and no duration is attached. -/
theorem rrule_duration_spec (id : String) (fm : OFCEvent) (rule : String)
    (sd : Int) (skips : List Int) (ts te : TimeStr) (s e : TimeOfDay)
    (ei : EventInput)
    (hdata : fm.data = .rrule rule sd skips)
    (hall : fm.allDay = false)
    (hst : fm.startTime = some ts) (hsp : ts.parsed = some s)
    (het : fm.endTime = some te) (hep : te.parsed = some e)
    (hnn : (s : Int) ≤ (e : Int))
    (hday : (e : Int) - (s : Int) < 1440)
    (hok : toEventInput id fm = some ei) :
    ei.duration = some ((e : Int) - (s : Int)) ∧
    (∀ (occs : List DateTimeM) (x : DateTimeM × Option Int),
      x ∈ expandWithExdates occs ei → x.2 = some ((e : Int) - (s : Int))) := by
  have hdt : rruleDtstart fm sd = some ⟨sd, s⟩ := by
    simp [rruleDtstart, hall, combineDateTimeStrings, parseTimeField, hst, hsp]
  simp only [toEventInput, hdata, hdt] at hok
  cases hok
  have hcond : 0 ≤ (e : Int) - (s : Int) ∧ (e : Int) - (s : Int) < 1440 :=
    ⟨by omega, hday⟩
  have hdur : rruleDuration fm = some ((e : Int) - (s : Int)) := by
    simp [rruleDuration, hall, parseTimeField, hst, hsp, het, hep,
      durationToISOTime, hcond]
  refine ⟨hdur, ?_⟩
  intro occs x hx
  simp only [expandWithExdates, List.mem_map] at hx
  obtain ⟨a, _, rfl⟩ := hx
  exact hdur

/-- A concrete timed rrule event, 9:00 to 10:00. -/
def c6Event : OFCEvent :=
  { title := "Workout", allDay := false, startTime := some ⟨some 540⟩,
    endTime := some ⟨some 600⟩, data := .rrule "FREQ=DAILY" 200 [],
    customProps := [] }

/-- The rendering-model value `toEventInput` produces for `c6Event`. -/
def c6EI : EventInput :=
  { id := "2", title := "Workout", allDay := false,
    rruleOut := some ("FREQ=DAILY", ⟨200, 540⟩), exdate := [],
    duration := some (((600 : TimeOfDay) : Int) - ((540 : TimeOfDay) : Int)) }

/-- Witness for C6 at the concrete event `c6Event`. -/
theorem rrule_duration_spec_witness :
    c6EI.duration = some (((600 : TimeOfDay) : Int) - ((540 : TimeOfDay) : Int)) :=
  (rrule_duration_spec "2" c6Event "FREQ=DAILY" 200 [] ⟨some 540⟩ ⟨some 600⟩
    540 600 c6EI rfl rfl rfl rfl rfl rfl (by decide) (by decide)
    (by decide)).1

/-- A concrete overnight timed rrule event, 23:00 to 01:00: the end time
is earlier than the start time. -/
def c6BadEvent : OFCEvent :=
  { title := "Night", allDay := false, startTime := some ⟨some 1380⟩,
    endTime := some ⟨some 60⟩, data := .rrule "FREQ=DAILY" 300 [],
    customProps := [] }

/-- C6 counterexample: for the overnight event the conversion succeeds but
attaches no duration (`toISOTime` of the negative difference is `null`),
so the attached duration does not equal end minus start. -/
theorem rrule_duration_cex :
    ((toEventInput "6" c6BadEvent).map (fun ei => ei.duration) =
      some none) ∧
    (toEventInput "6" c6BadEvent).map (fun ei => ei.duration) ≠
      some (some (((60 : TimeOfDay) : Int) - ((1380 : TimeOfDay) : Int))) := by
  decide

/-- A file whose `shelve` property does not match, or whose frontmatter
fails event validation, contributes the empty list (helper for C8). -/
theorem getEventsInFile_empty (value : String)
    (validate : List (String × String) → Option OFCEvent) (f : FileRec)
    (h : shelveProp f ≠ some value ∨
      ∀ fm, f.frontmatter = some fm → validate fm = none) :
    getEventsInFile value validate f = [] := by
  cases hf : f.frontmatter with
  | none => simp [getEventsInFile, hf]
  | some fm =>
      by_cases hc :
        (fm.find? (fun kv => kv.1 = "shelve")).map (fun kv => kv.2) =
          some value
      · rcases h with h | h
        · exact absurd (by unfold shelveProp; rw [hf]; exact hc) h
        · simp [getEventsInFile, hf, h fm hf, hc]
      · simp [getEventsInFile, hf, hc]

/-- Folder recursion over a tree (and over a child list) in which every
file contributes the empty list yields the empty list (helper for C8). -/
theorem getEventsInFolderRec_empty (value : String)
    (validate : List (String × String) → Option OFCEvent)
    (t : TAbstractFile)
    (h : ∀ f ∈ treeFiles t, getEventsInFile value validate f = []) :
    getEventsInFolderRec value validate t = [] := by
  have main : ∀ n : Nat,
      (∀ t : TAbstractFile, sizeOf t ≤ n →
        (∀ f ∈ treeFiles t, getEventsInFile value validate f = []) →
        getEventsInFolderRec value validate t = []) ∧
      (∀ cs : List TAbstractFile, sizeOf cs ≤ n →
        (∀ f ∈ treeFilesList cs, getEventsInFile value validate f = []) →
        getEventsInChildren value validate cs = []) := by
    intro n
    induction n with
    | zero =>
        constructor
        · intro t ht
          cases t <;> simp [TAbstractFile.tfile.sizeOf_spec,
            TAbstractFile.tfolder.sizeOf_spec] at ht
        · intro cs hcs
          cases cs <;> intro _ <;> first | rfl | simp at hcs
    | succ n ih =>
        constructor
        · intro t ht hfiles
          cases t with
          | tfile f =>
              unfold getEventsInFolderRec
              by_cases he : f.extension = "md"
              · rw [if_pos he]
                exact hfiles f (by simp [treeFiles])
              · rw [if_neg he]
          | tfolder cs =>
              unfold getEventsInFolderRec
              apply ih.2 cs
              · simp [TAbstractFile.tfolder.sizeOf_spec] at ht
                omega
              · simpa [treeFiles] using hfiles
        · intro cs hcs hfiles
          cases cs with
          | nil => rfl
          | cons c rest =>
              unfold getEventsInChildren
              simp only [List.cons.sizeOf_spec] at hcs
              rw [ih.1 c (by omega)
                  (fun f hf => hfiles f (by simp [treeFilesList, hf])),
                ih.2 rest (by omega)
                  (fun f hf => hfiles f (by simp [treeFilesList, hf]))]
              rfl
  exact (main (sizeOf t)).1 t (Nat.le_refl _) h

/-- C8: provided the vault root resolves to a folder, a shelve calendar's
`getEvents` never throws: it returns `ok` of the recursion result; when no
file in the vault carries the matching `shelve` value it returns the empty
list; and a file whose frontmatter does not match or fails event
validation contributes the empty list rather than an error. -/
theorem shelve_getEvents_no_throw (value : String)
    (validate : List (String × String) → Option OFCEvent)
    (root : Option TAbstractFile) (children : List TAbstractFile)
    (hroot : root = some (.tfolder children)) :
    (∃ l, shelveGetEvents root value validate = .ok l) ∧
    ((∀ f ∈ treeFiles (.tfolder children), shelveProp f ≠ some value) →
      shelveGetEvents root value validate = .ok []) ∧
    (∀ f : FileRec, (shelveProp f ≠ some value ∨
        ∀ fm, f.frontmatter = some fm → validate fm = none) →
      getEventsInFile value validate f = []) := by
  subst hroot
  refine ⟨⟨_, rfl⟩, ?_, getEventsInFile_empty value validate⟩
  intro h
  show Except.ok (getEventsInFolderRec value validate (.tfolder children)) = _
  rw [getEventsInFolderRec_empty value validate _
    (fun f hf => getEventsInFile_empty value validate f (Or.inl (h f hf)))]

/-- A concrete one-file vault tree whose file does not match the shelve
value `work`. -/
def c8Tree : TAbstractFile :=
  .tfolder [.tfile ⟨"a", "md", some [("shelve", "other")]⟩]

/-- Witness for C8: `getEvents` on the concrete non-matching vault returns
the empty list. -/
theorem shelve_getEvents_no_throw_witness :
    shelveGetEvents (some c8Tree) "work" (fun _ => none) = .ok [] :=
  (shelve_getEvents_no_throw "work" (fun _ => none) (some c8Tree)
    [.tfile ⟨"a", "md", some [("shelve", "other")]⟩] rfl).2.1
    (by decide)

/-- Specification of `findLane`: a found index is in range and its lane
ends strictly before the candidate start cell. -/
theorem findLane_spec (sc : Int) (lanes : List Int) (i : Nat)
    (h : findLane sc lanes = some i) :
    i < lanes.length ∧ lanes.getD i 0 < sc := by
  induction lanes generalizing i with
  | nil => simp [findLane] at h
  | cons le rest ih =>
      unfold findLane at h
      by_cases hle : le < sc
      · rw [if_pos hle] at h
        cases h
        exact ⟨by simp, by simpa using hle⟩
      · rw [if_neg hle] at h
        cases hr : findLane sc rest with
        | none => rw [hr] at h; simp at h
        | some j =>
            rw [hr] at h
            simp at h
            subst h
            obtain ⟨h1, h2⟩ := ih j hr
            exact ⟨by simpa using Nat.succ_lt_succ h1, by simpa using h2⟩

/-- Reading back the updated entry of `List.set`. -/
theorem getD_set_self (l : List Int) (i : Nat) (v : Int)
    (h : i < l.length) : (l.set i v).getD i 0 = v := by
  induction l generalizing i with
  | nil => simp at h
  | cons a rest ih =>
      cases i with
      | zero => rfl
      | succ j => simpa using ih j (by simpa using h)

/-- Reading an untouched entry of `List.set`. -/
theorem getD_set_ne (l : List Int) (i k : Nat) (v : Int) (h : k ≠ i) :
    (l.set i v).getD k 0 = l.getD k 0 := by
  induction l generalizing i k with
  | nil => simp
  | cons a rest ih =>
      cases i with
      | zero =>
          cases k with
          | zero => exact absurd rfl h
          | succ j => simp
      | succ j =>
          cases k with
          | zero => simp
          | succ m => simpa using ih j m (fun hc => h (by rw [hc]))

/-- Reading an entry of the left part of an append. -/
theorem getD_append_lt (l l2 : List Int) (k : Nat) (h : k < l.length) :
    (l ++ l2).getD k 0 = l.getD k 0 := by
  induction l generalizing k with
  | nil => simp at h
  | cons a rest ih =>
      cases k with
      | zero => rfl
      | succ j => simpa using ih j (by simpa using h)

/-- Reading the appended entry. -/
theorem getD_append_len (l : List Int) (v : Int) :
    (l ++ [v]).getD l.length 0 = v := by
  induction l with
  | nil => rfl
  | cons a rest ih => simp [ih]

/-- Monotonicity of the start cell in the event's start day. -/
theorem startCellOf_mono (fdow monthStart : Int) (a b : LEvent)
    (h : a.start ≤ b.start) :
    startCellOf fdow monthStart a ≤ startCellOf fdow monthStart b := by
  unfold startCellOf
  omega

/-- Case analysis for one iteration of the lane-assignment loop. -/
theorem placeOne_cases (fdow totalCols monthStart monthEndEx : Int)
    (lanes : List Int) (e : LEvent) :
    (totalCols ≤ startCellOf fdow monthStart e ∧
      placeOne fdow totalCols monthStart monthEndEx lanes e =
        (none, lanes)) ∨
    (∃ i, ¬ totalCols ≤ startCellOf fdow monthStart e ∧
      findLane (startCellOf fdow monthStart e) lanes = some i ∧
      placeOne fdow totalCols monthStart monthEndEx lanes e =
        (some ⟨startCellOf fdow monthStart e,
               endCellOf fdow totalCols monthStart monthEndEx e, i⟩,
         lanes.set i (endCellOf fdow totalCols monthStart monthEndEx e))) ∨
    (¬ totalCols ≤ startCellOf fdow monthStart e ∧
      findLane (startCellOf fdow monthStart e) lanes = none ∧
      placeOne fdow totalCols monthStart monthEndEx lanes e =
        (some ⟨startCellOf fdow monthStart e,
               endCellOf fdow totalCols monthStart monthEndEx e,
               lanes.length⟩,
         lanes ++ [endCellOf fdow totalCols monthStart monthEndEx e])) := by
  by_cases hskip : totalCols ≤ startCellOf fdow monthStart e
  · refine Or.inl ⟨hskip, ?_⟩
    unfold placeOne
    rw [if_pos hskip]
  · cases hfind : findLane (startCellOf fdow monthStart e) lanes with
    | some i =>
        refine Or.inr (Or.inl ⟨i, hskip, rfl, ?_⟩)
        unfold placeOne
        rw [if_neg hskip, hfind]
    | none =>
        refine Or.inr (Or.inr ⟨hskip, rfl, ?_⟩)
        unfold placeOne
        rw [if_neg hskip, hfind]

/-- Unfolding `assignLanes` when the head event is skipped. -/
theorem assignLanes_cons_none (fdow totalCols monthStart monthEndEx : Int)
    (e : LEvent) (rest : List LEvent) (lanes lanes' : List Int)
    (heq : placeOne fdow totalCols monthStart monthEndEx lanes e =
      (none, lanes')) :
    assignLanes fdow totalCols monthStart monthEndEx (e :: rest) lanes =
      assignLanes fdow totalCols monthStart monthEndEx rest lanes' := by
  show (match placeOne fdow totalCols monthStart monthEndEx lanes e with
    | (none, l') => assignLanes fdow totalCols monthStart monthEndEx rest l'
    | (some p, l') =>
        p :: assignLanes fdow totalCols monthStart monthEndEx rest l') = _
  rw [heq]

/-- Unfolding `assignLanes` when the head event is placed. -/
theorem assignLanes_cons_some (fdow totalCols monthStart monthEndEx : Int)
    (e : LEvent) (rest : List LEvent) (lanes lanes' : List Int) (p : Placed)
    (heq : placeOne fdow totalCols monthStart monthEndEx lanes e =
      (some p, lanes')) :
    assignLanes fdow totalCols monthStart monthEndEx (e :: rest) lanes =
      p :: assignLanes fdow totalCols monthStart monthEndEx rest lanes' := by
  show (match placeOne fdow totalCols monthStart monthEndEx lanes e with
    | (none, l') => assignLanes fdow totalCols monthStart monthEndEx rest l'
    | (some q, l') =>
        q :: assignLanes fdow totalCols monthStart monthEndEx rest l') = _
  rw [heq]

/-- Invariant of the lane-assignment loop: any placement the loop makes on
an existing lane `k` starts strictly after that lane's current end cell
and no earlier than the running lower bound `lb` on start cells; the bound
`max (lane end + 1) lb` only grows along the run. -/
theorem assignLanes_future_lb (fdow totalCols monthStart monthEndEx : Int) :
    ∀ (events : List LEvent) (lanes : List Int) (lb : Int),
      (∀ e ∈ events, lb ≤ startCellOf fdow monthStart e) →
      List.Pairwise (fun a b => a.start ≤ b.start) events →
      ∀ k, k < lanes.length →
      ∀ q ∈ assignLanes fdow totalCols monthStart monthEndEx events lanes,
        q.lane = k → max (lanes.getD k 0 + 1) lb ≤ q.startCell := by
  intro events
  induction events with
  | nil =>
      intro lanes lb _ _ k hk q hq
      simp [assignLanes] at hq
  | cons e rest ih =>
      intro lanes lb hlb hsort k hk q hq hlane
      obtain ⟨hhead, htail⟩ := List.pairwise_cons.mp hsort
      have hlb_e : lb ≤ startCellOf fdow monthStart e := hlb e (by simp)
      have hrest : ∀ e' ∈ rest,
          startCellOf fdow monthStart e ≤ startCellOf fdow monthStart e' :=
        fun e' he' => startCellOf_mono fdow monthStart e e' (hhead e' he')
      rcases placeOne_cases fdow totalCols monthStart monthEndEx lanes e with
        ⟨hskip, heq⟩ | ⟨i, hns, hfind, heq⟩ | ⟨hns, hfind, heq⟩
      · rw [assignLanes_cons_none fdow totalCols monthStart monthEndEx
          e rest lanes lanes heq] at hq
        exact ih lanes lb (fun e' he' => hlb e' (by simp [he'])) htail
          k hk q hq hlane
      · rw [assignLanes_cons_some fdow totalCols monthStart monthEndEx
          e rest lanes _ _ heq] at hq
        obtain ⟨hi_len, hi_lt⟩ := findLane_spec _ lanes i hfind
        rcases List.mem_cons.mp hq with rfl | hq'
        · have hik : i = k := hlane
          subst hik
          show max (lanes.getD i 0 + 1) lb ≤ startCellOf fdow monthStart e
          omega
        · have haux := ih
            (lanes.set i (endCellOf fdow totalCols monthStart monthEndEx e))
            (startCellOf fdow monthStart e) hrest htail k
            (by simpa using hk) q hq' hlane
          by_cases hki : k = i
          · subst hki
            rw [getD_set_self lanes k _ hi_len] at haux
            omega
          · rw [getD_set_ne lanes i k _ hki] at haux
            omega
      · rw [assignLanes_cons_some fdow totalCols monthStart monthEndEx
          e rest lanes _ _ heq] at hq
        rcases List.mem_cons.mp hq with rfl | hq'
        · have hik : lanes.length = k := hlane
          omega
        · have haux := ih
            (lanes ++ [endCellOf fdow totalCols monthStart monthEndEx e])
            (startCellOf fdow monthStart e) hrest htail k
            (by simp; omega) q hq' hlane
          rw [getD_append_lt lanes _ k hk] at haux
          omega

/-- The loop never double-books a lane: the produced placement list is
pairwise compatible, an earlier placement on the same lane ending strictly
before a later one starts. -/
theorem assignLanes_pairwise (fdow totalCols monthStart monthEndEx : Int) :
    ∀ (events : List LEvent) (lanes : List Int),
      List.Pairwise (fun a b => a.start ≤ b.start) events →
      List.Pairwise (fun p q => p.lane = q.lane → p.endCell < q.startCell)
        (assignLanes fdow totalCols monthStart monthEndEx events lanes) := by
  intro events
  induction events with
  | nil =>
      intro lanes _
      simp [assignLanes]
  | cons e rest ih =>
      intro lanes hsort
      obtain ⟨hhead, htail⟩ := List.pairwise_cons.mp hsort
      have hrest : ∀ e' ∈ rest,
          startCellOf fdow monthStart e ≤ startCellOf fdow monthStart e' :=
        fun e' he' => startCellOf_mono fdow monthStart e e' (hhead e' he')
      rcases placeOne_cases fdow totalCols monthStart monthEndEx lanes e with
        ⟨hskip, heq⟩ | ⟨i, hns, hfind, heq⟩ | ⟨hns, hfind, heq⟩
      · rw [assignLanes_cons_none fdow totalCols monthStart monthEndEx
          e rest lanes lanes heq]
        exact ih lanes htail
      · rw [assignLanes_cons_some fdow totalCols monthStart monthEndEx
          e rest lanes _ _ heq]
        refine List.Pairwise.cons ?_ (ih _ htail)
        intro q hq hlane
        obtain ⟨hi_len, hi_lt⟩ := findLane_spec _ lanes i hfind
        have hik : q.lane = i := hlane.symm
        have haux := assignLanes_future_lb fdow totalCols monthStart
          monthEndEx rest
          (lanes.set i (endCellOf fdow totalCols monthStart monthEndEx e))
          (startCellOf fdow monthStart e) hrest htail i
          (by simpa using hi_len) q hq hik
        rw [getD_set_self lanes i _ hi_len] at haux
        show endCellOf fdow totalCols monthStart monthEndEx e < q.startCell
        omega
      · rw [assignLanes_cons_some fdow totalCols monthStart monthEndEx
          e rest lanes _ _ heq]
        refine List.Pairwise.cons ?_ (ih _ htail)
        intro q hq hlane
        have hik : q.lane = lanes.length := hlane.symm
        have haux := assignLanes_future_lb fdow totalCols monthStart
          monthEndEx rest
          (lanes ++ [endCellOf fdow totalCols monthStart monthEndEx e])
          (startCellOf fdow monthStart e) hrest htail lanes.length
          (by simp) q hq hik
        rw [getD_append_len lanes _] at haux
        show endCellOf fdow totalCols monthStart monthEndEx e < q.startCell
        omega

/-- C10: given the month's events sorted ascending by start date, any two
distinct events assigned to the same lane occupy disjoint cell ranges: the
earlier event's end cell is strictly less than the later event's start
cell. -/
theorem lane_assignment_disjoint (fdow totalCols monthStart monthEndEx :
      Int) (events : List LEvent)
    (hsorted : List.Pairwise (fun a b => a.start ≤ b.start) events) :
    ∀ (i j : Fin
      (assignLanes fdow totalCols monthStart monthEndEx events []).length),
      i < j →
      ((assignLanes fdow totalCols monthStart monthEndEx events []).get
          i).lane =
        ((assignLanes fdow totalCols monthStart monthEndEx events []).get
          j).lane →
      ((assignLanes fdow totalCols monthStart monthEndEx events []).get
          i).endCell <
        ((assignLanes fdow totalCols monthStart monthEndEx events []).get
          j).startCell := by
  intro i j hij hlane
  exact List.pairwise_iff_get.mp
    (assignLanes_pairwise fdow totalCols monthStart monthEndEx events []
      hsorted) i j hij hlane

/-- Two concrete sorted events that land in the same lane. -/
def c10Events : List LEvent := [⟨0, 2⟩, ⟨3, 5⟩]

/-- Witness for C10: on the concrete input both events get lane 0 and
their cell ranges are disjoint. -/
theorem lane_assignment_disjoint_witness :
    ((assignLanes 0 37 0 31 c10Events []).get ⟨0, by decide⟩).endCell <
      ((assignLanes 0 37 0 31 c10Events []).get ⟨1, by decide⟩).startCell :=
  lane_assignment_disjoint 0 37 0 31 c10Events (by decide)
    ⟨0, by decide⟩ ⟨1, by decide⟩ (by decide) (by decide)
